import Mathlib

set_option maxRecDepth 10000

/-!
Shallow embedding of `src/utils.rs` (crypto utility primitives).

Buffers of bytes are modelled as `List Nat` whose entries are meant to be
below 256 (the `u8` range); machine words are `Nat` with explicit bounds
`< 2^32` / `< 2^64` where they matter.  Signed fixed-width integers (the
element type of `bytes_cswap`) are modelled as `Int`, on which the bitwise
operations `Int.land`, `Int.xor` and `~~~` agree with the two's-complement
machine operations for all representable values.  A Rust `assert!` failure
(panic/abort) is modelled as the `Option` value `none`.  A generic buffer
of elements of type `α` whose `size_of` is `sz` is viewed as raw bytes
through a serialization function `r : α → List Nat` producing `sz` bytes
per element, mirroring the `as *const u8` reinterpretation in `bytes_eq`.
-/

namespace Utils

/-- Embeds `u8to32_le`: little-endian decode of 4 bytes, OR-accumulated
into `val`; the `assert!(buf.len() >= 4)` is the `none` branch. -/
def u8to32_le (val : Nat) (buf : List Nat) : Option Nat :=
  if 4 ≤ buf.length then
    some ((List.range 4).foldl (fun v i => v ||| (buf.getD i 0 <<< (8 * i))) val)
  else none

/-- Embeds `u32to8_le`: little-endian encode of a 32-bit word into the
first 4 bytes of `buf`; each written byte is `(val >> (8*i)) as u8 & 0xff`. -/
def u32to8_le (buf : List Nat) (val : Nat) : Option (List Nat) :=
  if 4 ≤ buf.length then
    some ((List.range 4).foldl (fun b i => b.set i (((val >>> (8 * i)) % 256) &&& 255)) buf)
  else none

/-- Embeds `u8to64_le`: little-endian decode of 8 bytes, OR-accumulated
into `val`. -/
def u8to64_le (val : Nat) (buf : List Nat) : Option Nat :=
  if 8 ≤ buf.length then
    some ((List.range 8).foldl (fun v i => v ||| (buf.getD i 0 <<< (8 * i))) val)
  else none

/-- Embeds `u64to8_le`: little-endian encode of a 64-bit word into the
first 8 bytes of `buf`; each written byte is `(val >> (8*i)) as u8`. -/
def u64to8_le (buf : List Nat) (val : Nat) : Option (List Nat) :=
  if 8 ≤ buf.length then
    some ((List.range 8).foldl (fun b i => b.set i ((val >>> (8 * i)) % 256)) buf)
  else none

/-- Embeds `pad16`: `Vec::from_elem((16 - (len % 16)) % 16, 0)`. -/
def pad16 (len : Nat) : List Nat :=
  List.replicate ((16 - len % 16) % 16) 0

/-- Embeds `zero_memory`: `volatile_set_memory(b, 0, b.len())`, i.e. every
element of the buffer is overwritten with the zero value of its type. -/
def zero_memory {α : Type} [Zero α] (b : List α) : List α :=
  b.map fun _ => (0 : α)

/-- Embeds `copy_slice_memory`: `copy_nonoverlapping_memory` of `count`
elements from `src` into `dst`; the `assert!` is the `none` branch. -/
def copy_slice_memory {α : Type} (dst src : List α) (count : Nat) : Option (List α) :=
  if count ≤ dst.length ∧ count ≤ src.length then
    some (src.take count ++ dst.drop count)
  else none

/-- Embeds `byte_eq`: `z = !(x ^ y)` on `u8` (complement on 8 bits is
XOR with `0xff`), then fold with `z &= z >> 4; z &= z >> 2; z &= z >> 1`. -/
def byte_eq (x y : Nat) : Nat :=
  let z1 := (x ^^^ y) ^^^ 255
  let z2 := z1 &&& (z1 >>> 4)
  let z3 := z2 &&& (z2 >>> 2)
  z3 &&& (z3 >>> 1)

/-- The byte loop of `bytes_eq`: `for i in range(0, size) { d |= px[i] ^ py[i] }`,
instrumented to also record the sequence of byte offsets accessed, so that
statements about the memory-access pattern can be made. -/
def bytesEqLoop (px py : List Nat) (size : Nat) : Nat × List Nat :=
  (List.range size).foldl
    (fun s i => (s.1 ||| (px.getD i 0 ^^^ py.getD i 0), s.2 ++ [i]))
    (0, [])

/-- Embeds `bytes_eq`: length mismatch returns `false`; otherwise the two
buffers are viewed as raw byte sequences (`flatten` of the per-element
serialization `r`, whose length per element is the `size_of` value `sz`),
the byte loop accumulates OR of XOR over `size = x.len() * size_of::<T>()`
positions, and the accumulator is reduced with `byte_eq(d, 0) == 1`. -/
def bytes_eq {α : Type} (sz : Nat) (r : α → List Nat) (x y : List α) : Bool :=
  if x.length ≠ y.length then false
  else
    byte_eq (bytesEqLoop ((x.map r).flatten) ((y.map r).flatten) (x.length * sz)).1 0 == 1

/-- The sequence of byte offsets read by the `bytes_eq` loop (empty when the
length guard returns early). -/
def bytesEqAccesses {α : Type} (sz : Nat) (r : α → List Nat) (x y : List α) : List Nat :=
  if x.length ≠ y.length then []
  else (bytesEqLoop ((x.map r).flatten) ((y.map r).flatten) (x.length * sz)).2

/-- Embeds `bytes_cswap`: `assert_eq!(x.len(), y.len())` is the `none`
branch; `c = !(cond - 1)`; the loop computes `t = c & (x[i] ^ y[i])` and
XORs `t` into both sides, updating the buffers in place. -/
def bytes_cswap (cond : Int) (x y : List Int) : Option (List Int × List Int) :=
  if x.length = y.length then
    let c : Int := ~~~(cond - 1)
    some ((List.range x.length).foldl
      (fun p i =>
        let t := Int.land c (Int.xor (p.1.getD i 0) (p.2.getD i 0))
        (p.1.set i (Int.xor (p.1.getD i 0) t),
         p.2.set i (Int.xor (p.2.getD i 0) t)))
      (x, y))
  else none

/-! ### Generic helper lemmas -/

theorem or_eq_zero_iff (x y : Nat) : x ||| y = 0 ↔ x = 0 ∧ y = 0 := by
  constructor
  · intro h
    constructor <;>
    · apply Nat.eq_of_testBit_eq
      intro i
      have h2 := congrArg (Nat.testBit · i) h
      simp [Nat.testBit_or] at h2
      simp [h2.1, h2.2]
  · rintro ⟨rfl, rfl⟩
    simp

theorem foldl_or_eq_zero (l : List Nat) (a : Nat) :
    l.foldl (fun d b => d ||| b) a = 0 ↔ a = 0 ∧ ∀ b ∈ l, b = 0 := by
  induction l generalizing a with
  | nil => simp
  | cons c t ih =>
      simp only [List.foldl_cons, ih, or_eq_zero_iff, List.mem_cons]
      constructor
      · rintro ⟨⟨ha, hc⟩, ht⟩
        exact ⟨ha, fun b hb => hb.elim (fun h => h ▸ hc) (ht b)⟩
      · rintro ⟨ha, hall⟩
        exact ⟨⟨ha, hall c (Or.inl rfl)⟩, fun b hb => hall b (Or.inr hb)⟩

theorem foldl_or_lt (l : List Nat) (k : Nat) :
    ∀ a : Nat, a < 2 ^ k → (∀ b ∈ l, b < 2 ^ k) →
      l.foldl (fun d b => d ||| b) a < 2 ^ k := by
  induction l with
  | nil => intro a ha _; simpa using ha
  | cons c t ih =>
      intro a ha hl
      simp only [List.foldl_cons]
      exact ih _ (Nat.or_lt_two_pow ha (hl c (List.mem_cons_self c t)))
        (fun b hb => hl b (List.mem_cons_of_mem c hb))

theorem flatten_length_uniform {α : Type} (sz : Nat) (r : α → List Nat) (x : List α)
    (hr : ∀ a, (r a).length = sz) :
    ((x.map r).flatten).length = x.length * sz := by
  rw [List.length_flatten, List.map_map]
  have h : (x.map (List.length ∘ r)) = x.map (fun _ => sz) := by
    apply List.map_congr_left
    intro a _
    exact hr a
  rw [h, List.map_const', List.sum_replicate, smul_eq_mul]

theorem flatten_getD_lt {α : Type} (r : α → List Nat) (x : List α)
    (hb : ∀ a, ∀ b ∈ r a, b < 256) (i : Nat) :
    ((x.map r).flatten).getD i 0 < 256 := by
  by_cases h : i < ((x.map r).flatten).length
  · rw [List.getD_eq_getElem _ _ h]
    have hm : ((x.map r).flatten)[i] ∈ (x.map r).flatten := List.getElem_mem h
    rw [List.mem_flatten] at hm
    obtain ⟨l, hl, hel⟩ := hm
    rw [List.mem_map] at hl
    obtain ⟨a, _, rfl⟩ := hl
    exact hb a _ hel
  · rw [List.getD_eq_default _ _ (Nat.le_of_not_lt h)]
    decide

theorem flatten_inj_uniform (sz : Nat) :
    ∀ (L1 L2 : List (List Nat)), (∀ l ∈ L1, l.length = sz) → (∀ l ∈ L2, l.length = sz) →
      L1.length = L2.length → L1.flatten = L2.flatten → L1 = L2 := by
  intro L1
  induction L1 with
  | nil =>
      intro L2 _ _ hlen _
      cases L2 with
      | nil => rfl
      | cons h t => simp at hlen
  | cons h1 t1 ih =>
      intro L2 hu1 hu2 hlen hf
      cases L2 with
      | nil => simp at hlen
      | cons h2 t2 =>
          simp only [List.flatten_cons] at hf
          have hlen12 : h1.length = h2.length := by
            rw [hu1 h1 (List.mem_cons_self h1 t1), hu2 h2 (List.mem_cons_self h2 t2)]
          obtain ⟨heq, hteq⟩ := List.append_inj hf hlen12
          have ht := ih t2 (fun l hl => hu1 l (List.mem_cons_of_mem _ hl))
            (fun l hl => hu2 l (List.mem_cons_of_mem _ hl)) (by simpa using hlen) hteq
          rw [heq, ht]

theorem bytesEqLoop_eq (px py : List Nat) (n : Nat) :
    bytesEqLoop px py n =
      (((List.range n).map (fun i => px.getD i 0 ^^^ py.getD i 0)).foldl
          (fun d b => d ||| b) 0,
       List.range n) := by
  induction n with
  | zero => rfl
  | succ n ih =>
      unfold bytesEqLoop at ih ⊢
      rw [List.range_succ, List.foldl_append, ih, List.map_append, List.foldl_append]
      simp

theorem byte_eq_on_byte : ∀ z : Fin 256, byte_eq z.val 0 = if z.val = 0 then 1 else 0 := by
  decide

theorem byte_eq_xor (x y : Nat) : byte_eq x y = byte_eq (x ^^^ y) 0 := by
  simp [byte_eq]

theorem byte_eq_if (x y : Nat) (hx : x < 256) (hy : y < 256) :
    byte_eq x y = if x = y then 1 else 0 := by
  have hx8 : x < 2 ^ 8 := by norm_num [hx]
  have hy8 : y < 2 ^ 8 := by norm_num [hy]
  have hz : x ^^^ y < 256 := by
    have h8 := Nat.xor_lt_two_pow hx8 hy8
    norm_num at h8
    exact h8
  rw [byte_eq_xor, byte_eq_on_byte ⟨x ^^^ y, hz⟩]
  by_cases h : x = y
  · simp [h, Nat.xor_self]
  · have hne : x ^^^ y ≠ 0 := fun hc => h (Nat.xor_eq_zero.mp hc)
    simp [h, hne]

theorem or_mod_shift_step (w k : Nat) :
    (w % 2 ^ k) ||| (((w >>> k) % 2 ^ 8) <<< k) = w % 2 ^ (k + 8) := by
  apply Nat.eq_of_testBit_eq
  intro i
  simp only [Nat.testBit_or, Nat.testBit_shiftLeft, Nat.testBit_mod_two_pow,
    Nat.testBit_shiftRight]
  by_cases h1 : i < k
  · have h2 : ¬ k ≤ i := by omega
    have h3 : i < k + 8 := by omega
    simp [h1, h2, h3]
  · have h2 : k ≤ i := by omega
    have h4 : k + (i - k) = i := by omega
    simp only [h1, h2, h4, decide_True, decide_False, Bool.false_and, Bool.true_and,
      Bool.false_or]
    by_cases h5 : i < k + 8
    · have h6 : i - k < 8 := by omega
      simp [h5, h6]
    · have h6 : ¬ i - k < 8 := by omega
      simp [h5, h6]

theorem decode_fold (w : Nat) :
    ∀ k, (List.range k).foldl (fun v i => v ||| (((w >>> (8 * i)) % 256) <<< (8 * i))) 0
      = w % 2 ^ (8 * k) := by
  intro k
  induction k with
  | zero => simp [Nat.mod_one]
  | succ k ih =>
      rw [List.range_succ, List.foldl_append, ih, List.foldl_cons, List.foldl_nil]
      have h256 : (256 : Nat) = 2 ^ 8 := by norm_num
      rw [h256, or_mod_shift_step]
      have h8 : 8 * k + 8 = 8 * (k + 1) := by ring
      rw [h8]

theorem and255_eq_mod (v : Nat) : v &&& 255 = v % 256 := by
  have h : v &&& 2 ^ 8 - 1 = v % 2 ^ 8 := Nat.and_pow_two_sub_one_eq_mod v 8
  norm_num at h
  exact h

theorem foldl_set_range {α : Type} (f : Nat → α) (l : List α) :
    ∀ n, n ≤ l.length →
      (List.range n).foldl (fun b i => b.set i (f i)) l = (List.range n).map f ++ l.drop n := by
  intro n
  induction n with
  | zero => simp
  | succ n ih =>
      intro h
      rw [List.range_succ, List.foldl_append, ih (by omega), List.foldl_cons, List.foldl_nil,
        List.map_append]
      have hA : ((List.range n).map f).length = n := by simp
      have hn : n < l.length := by omega
      rw [List.set_append_right _ _ (by rw [hA])]
      rw [hA, Nat.sub_self, List.drop_eq_getElem_cons hn, List.set_cons_zero]
      simp

theorem u32to8_le_eq (buf : List Nat) (w : Nat) (hb : 4 ≤ buf.length) :
    u32to8_le buf w =
      some ((List.range 4).map (fun i => ((w >>> (8 * i)) % 256) &&& 255) ++ buf.drop 4) := by
  rw [u32to8_le, if_pos hb, foldl_set_range _ _ 4 hb]

theorem u64to8_le_eq (buf : List Nat) (w : Nat) (hb : 8 ≤ buf.length) :
    u64to8_le buf w =
      some ((List.range 8).map (fun i => (w >>> (8 * i)) % 256) ++ buf.drop 8) := by
  rw [u64to8_le, if_pos hb, foldl_set_range _ _ 8 hb]

theorem enc_dec32 (w : Nat) (buf : List Nat) (hw : w < 2 ^ 32) (hb : 4 ≤ buf.length) :
    (u32to8_le buf w).bind (u8to32_le 0) = some w := by
  rw [u32to8_le_eq buf w hb, Option.some_bind]
  set b2 := (List.range 4).map (fun i => ((w >>> (8 * i)) % 256) &&& 255) ++ buf.drop 4 with hb2
  have hlen : 4 ≤ b2.length := by
    rw [hb2]
    simp
  rw [u8to32_le, if_pos hlen]
  have hext : (List.range 4).foldl (fun v i => v ||| (b2.getD i 0 <<< (8 * i))) 0 =
      (List.range 4).foldl (fun v i => v ||| (((w >>> (8 * i)) % 256) <<< (8 * i))) 0 := by
    apply List.foldl_ext
    intro a i hi
    rw [List.mem_range] at hi
    have hmap : i < ((List.range 4).map (fun i => ((w >>> (8 * i)) % 256) &&& 255)).length := by
      simpa using hi
    rw [hb2, List.getD_append _ _ _ _ hmap, List.getD_eq_getElem _ _ hmap,
      List.getElem_map, List.getElem_range, and255_eq_mod, Nat.mod_mod_of_dvd _ (by norm_num)]
  rw [hext, decode_fold]
  congr 1
  have h32 : (2 : Nat) ^ (8 * 4) = 2 ^ 32 := by norm_num
  rw [h32]
  exact Nat.mod_eq_of_lt hw

theorem enc_dec64 (w : Nat) (buf : List Nat) (hw : w < 2 ^ 64) (hb : 8 ≤ buf.length) :
    (u64to8_le buf w).bind (u8to64_le 0) = some w := by
  rw [u64to8_le_eq buf w hb, Option.some_bind]
  set b2 := (List.range 8).map (fun i => (w >>> (8 * i)) % 256) ++ buf.drop 8 with hb2
  have hlen : 8 ≤ b2.length := by
    rw [hb2]
    simp
  rw [u8to64_le, if_pos hlen]
  have hext : (List.range 8).foldl (fun v i => v ||| (b2.getD i 0 <<< (8 * i))) 0 =
      (List.range 8).foldl (fun v i => v ||| (((w >>> (8 * i)) % 256) <<< (8 * i))) 0 := by
    apply List.foldl_ext
    intro a i hi
    rw [List.mem_range] at hi
    have hmap : i < ((List.range 8).map (fun i => (w >>> (8 * i)) % 256)).length := by
      simpa using hi
    rw [hb2, List.getD_append _ _ _ _ hmap, List.getD_eq_getElem _ _ hmap,
      List.getElem_map, List.getElem_range]
  rw [hext, decode_fold]
  congr 1
  have h64 : (2 : Nat) ^ (8 * 8) = 2 ^ 64 := by norm_num
  rw [h64]
  exact Nat.mod_eq_of_lt hw

theorem ldiff_zero_right (n : Nat) : Nat.ldiff n 0 = n := by
  apply Nat.eq_of_testBit_eq
  intro i
  simp [Nat.testBit_ldiff]

theorem ldiff_zero_left (n : Nat) : Nat.ldiff 0 n = 0 := by
  apply Nat.eq_of_testBit_eq
  intro i
  simp [Nat.testBit_ldiff]

theorem int_land_zero (z : Int) : Int.land 0 z = 0 := by
  cases z with
  | ofNat n =>
      show Int.land (Int.ofNat 0) (Int.ofNat n) = 0
      simp [Int.land]
  | negSucc n =>
      show Int.land (Int.ofNat 0) (Int.negSucc n) = 0
      simp [Int.land, ldiff_zero_left]

theorem int_land_neg_one (z : Int) : Int.land (-1) z = z := by
  cases z with
  | ofNat n =>
      show Int.land (Int.negSucc 0) (Int.ofNat n) = Int.ofNat n
      simp [Int.land, ldiff_zero_right]
  | negSucc n =>
      show Int.land (Int.negSucc 0) (Int.negSucc n) = Int.negSucc n
      simp [Int.land]

theorem int_xor_zero (a : Int) : Int.xor a 0 = a := by
  cases a with
  | ofNat n =>
      show Int.xor (Int.ofNat n) (Int.ofNat 0) = Int.ofNat n
      simp [Int.xor]
  | negSucc n =>
      show Int.xor (Int.negSucc n) (Int.ofNat 0) = Int.negSucc n
      simp [Int.xor]

theorem nat_xor_cancel (m n : Nat) : m ^^^ (m ^^^ n) = n := by
  rw [← Nat.xor_assoc, Nat.xor_self, Nat.zero_xor]

theorem int_xor_cancel (a b : Int) : Int.xor a (Int.xor a b) = b := by
  cases a with
  | ofNat m =>
      cases b with
      | ofNat n => show Int.xor _ (Int.xor (Int.ofNat m) (Int.ofNat n)) = _
                   simp [Int.xor, nat_xor_cancel]
      | negSucc n => show Int.xor _ (Int.xor (Int.ofNat m) (Int.negSucc n)) = _
                     simp [Int.xor, nat_xor_cancel]
  | negSucc m =>
      cases b with
      | ofNat n => show Int.xor _ (Int.xor (Int.negSucc m) (Int.ofNat n)) = _
                   simp [Int.xor, nat_xor_cancel]
      | negSucc n => show Int.xor _ (Int.xor (Int.negSucc m) (Int.negSucc n)) = _
                     simp [Int.xor, nat_xor_cancel]

theorem int_xor_comm (a b : Int) : Int.xor a b = Int.xor b a := by
  cases a <;> cases b <;> simp [Int.xor, Nat.xor_comm]

theorem int_xor_cancel2 (a b : Int) : Int.xor b (Int.xor a b) = a := by
  rw [int_xor_comm a b, int_xor_cancel]

theorem map_getD_range {α : Type} (l : List α) (d : α) :
    (List.range l.length).map (fun i => l.getD i d) = l := by
  apply List.ext_getElem (by simp)
  intro i h1 h2
  simp only [List.getElem_map, List.getElem_range]
  exact List.getD_eq_getElem _ _ h2

theorem cswap_loop (c : Int) (x y : List Int) (hxy : x.length = y.length) :
    ∀ n, n ≤ x.length →
      ((List.range n).foldl
        (fun p i =>
          let t := Int.land c (Int.xor (p.1.getD i 0) (p.2.getD i 0))
          (p.1.set i (Int.xor (p.1.getD i 0) t),
           p.2.set i (Int.xor (p.2.getD i 0) t)))
        (x, y)) =
      ((List.range n).map (fun i =>
          Int.xor (x.getD i 0) (Int.land c (Int.xor (x.getD i 0) (y.getD i 0)))) ++ x.drop n,
       (List.range n).map (fun i =>
          Int.xor (y.getD i 0) (Int.land c (Int.xor (x.getD i 0) (y.getD i 0)))) ++ y.drop n) := by
  intro n
  induction n with
  | zero => simp
  | succ n ih =>
      intro h
      have hn : n < x.length := by omega
      have hn2 : n < y.length := by omega
      rw [List.range_succ, List.foldl_append, ih (by omega)]
      simp only [List.foldl_cons, List.foldl_nil]
      have hA : ((List.range n).map (fun i =>
          Int.xor (x.getD i 0) (Int.land c (Int.xor (x.getD i 0) (y.getD i 0))))).length = n := by
        simp
      have hB : ((List.range n).map (fun i =>
          Int.xor (y.getD i 0) (Int.land c (Int.xor (x.getD i 0) (y.getD i 0))))).length = n := by
        simp
      have hget1 : ((List.range n).map (fun i =>
          Int.xor (x.getD i 0) (Int.land c (Int.xor (x.getD i 0) (y.getD i 0))) )
            ++ x.drop n |>.getD n 0) = x.getD n 0 := by
        rw [List.getD_append_right _ _ _ _ (by rw [hA]), hA, Nat.sub_self,
          List.drop_eq_getElem_cons hn, List.getD_cons_zero, List.getD_eq_getElem _ _ hn]
      have hget2 : ((List.range n).map (fun i =>
          Int.xor (y.getD i 0) (Int.land c (Int.xor (x.getD i 0) (y.getD i 0))) )
            ++ y.drop n |>.getD n 0) = y.getD n 0 := by
        rw [List.getD_append_right _ _ _ _ (by rw [hB]), hB, Nat.sub_self,
          List.drop_eq_getElem_cons hn2, List.getD_cons_zero, List.getD_eq_getElem _ _ hn2]
      rw [hget1, hget2, Prod.mk.injEq]
      constructor
      · rw [List.set_append_right _ _ (by rw [hA]), hA, Nat.sub_self,
          List.drop_eq_getElem_cons hn, List.set_cons_zero, List.map_append]
        simp [List.getD_eq_getElem _ _ hn]
      · rw [List.set_append_right _ _ (by rw [hB]), hB, Nat.sub_self,
          List.drop_eq_getElem_cons hn2, List.set_cons_zero, List.map_append]
        simp [List.getD_eq_getElem _ _ hn2]

theorem bytes_cswap_zero (x y : List Int) (h : x.length = y.length) :
    bytes_cswap 0 x y = some (x, y) := by
  unfold bytes_cswap
  rw [if_pos h]
  have hc : ~~~((0 : Int) - 1) = 0 := by decide
  simp only [hc]
  rw [cswap_loop 0 x y h x.length (Nat.le_refl _)]
  simp only [int_land_zero, int_xor_zero]
  rw [Option.some.injEq, Prod.mk.injEq]
  constructor
  · rw [List.drop_length, List.append_nil]
    exact map_getD_range x 0
  · have hd : y.drop x.length = [] := by rw [h, List.drop_length]
    rw [hd, List.append_nil, h]
    exact map_getD_range y 0

theorem bytes_cswap_one (x y : List Int) (h : x.length = y.length) :
    bytes_cswap 1 x y = some (y, x) := by
  unfold bytes_cswap
  rw [if_pos h]
  have hc : ~~~((1 : Int) - 1) = -1 := by decide
  simp only [hc]
  rw [cswap_loop (-1) x y h x.length (Nat.le_refl _)]
  simp only [int_land_neg_one, int_xor_cancel, int_xor_cancel2]
  rw [Option.some.injEq, Prod.mk.injEq]
  constructor
  · rw [List.drop_length, List.append_nil, h]
    exact map_getD_range y 0
  · have hd : y.drop x.length = [] := by rw [h, List.drop_length]
    rw [hd, List.append_nil]
    exact map_getD_range x 0

/-! ### Claim theorems -/

/-- C6: `pad16(len)` returns exactly `(16 - (len mod 16)) mod 16` padding
bytes, all zero-valued; the count is at most 15, is 0 whenever `len` is a
multiple of 16, `len` plus the count is a multiple of 16, the function is
total, and the concrete values of the spec hold. -/
theorem pad16_spec (len : Nat) :
    (pad16 len).length = (16 - len % 16) % 16 ∧
    (∀ b ∈ pad16 len, b = 0) ∧
    (pad16 len).length ≤ 15 ∧
    (len % 16 = 0 → (pad16 len).length = 0) ∧
    (len + (pad16 len).length) % 16 = 0 ∧
    (pad16 0).length = 0 ∧ (pad16 16).length = 0 ∧ (pad16 1).length = 15 ∧
    (pad16 15).length = 1 ∧ (pad16 42).length = 6 := by
  refine ⟨?_, ?_, ?_, ?_, ?_, by decide, by decide, by decide, by decide, by decide⟩
  · simp [pad16]
  · intro b hb
    exact (List.eq_of_mem_replicate hb)
  · simp [pad16]; omega
  · intro h; simp [pad16, h]
  · simp [pad16]; omega

/-- Witness for C6: the padding properties evaluated at `len = 40`. -/
theorem pad16_spec_witness :
    ((pad16 40).length = (16 - 40 % 16) % 16 ∧
    (∀ b ∈ pad16 40, b = 0) ∧
    (pad16 40).length ≤ 15 ∧
    (40 % 16 = 0 → (pad16 40).length = 0) ∧
    (40 + (pad16 40).length) % 16 = 0 ∧
    (pad16 0).length = 0 ∧ (pad16 16).length = 0 ∧ (pad16 1).length = 15 ∧
    (pad16 15).length = 1 ∧ (pad16 42).length = 6) :=
  pad16_spec 40

/-- C7: after `zero_memory(b)` every element of `b` equals the zero value of
the element type, regardless of the buffer's prior contents. -/
theorem zero_memory_spec {α : Type} [Zero α] (b : List α) :
    zero_memory b = List.replicate b.length 0 := by
  simp [zero_memory, List.map_const']

/-- Witness for C7: zeroing a concrete non-zero buffer. -/
theorem zero_memory_spec_witness :
    zero_memory [3, 4, 5] = List.replicate ([3, 4, 5] : List Nat).length 0 :=
  zero_memory_spec [3, 4, 5]

/-- C8: when both buffers have length at least `count`,
`copy_slice_memory(dst, src, count)` succeeds and makes the first `count`
elements of the destination equal to the first `count` elements of the
source (leaving the length unchanged); when `count` exceeds either length
the call fails fatally (`none`). -/
theorem copy_slice_memory_spec {α : Type} (dst src : List α) (count : Nat) :
    (count ≤ dst.length → count ≤ src.length →
      copy_slice_memory dst src count = some (src.take count ++ dst.drop count) ∧
      (src.take count ++ dst.drop count).take count = src.take count ∧
      (src.take count ++ dst.drop count).length = dst.length) ∧
    (dst.length < count ∨ src.length < count → copy_slice_memory dst src count = none) := by
  constructor
  · intro h1 h2
    refine ⟨by simp [copy_slice_memory, h1, h2], ?_, ?_⟩
    · rw [List.take_append_eq_append_take]
      simp [List.length_take, Nat.min_eq_left h2]
    · simp [List.length_take, List.length_drop, Nat.min_eq_left h2]
      omega
  · intro h
    simp only [copy_slice_memory, ite_eq_right_iff]
    intro hc
    omega

/-- Witness for C8: copying two elements into a three-element buffer. -/
theorem copy_slice_memory_spec_witness :
    ((2 ≤ ([10, 20, 30] : List Nat).length → 2 ≤ ([7, 8] : List Nat).length →
      copy_slice_memory [10, 20, 30] [7, 8] 2 =
        some (([7, 8] : List Nat).take 2 ++ ([10, 20, 30] : List Nat).drop 2) ∧
      (([7, 8] : List Nat).take 2 ++ ([10, 20, 30] : List Nat).drop 2).take 2 =
        ([7, 8] : List Nat).take 2 ∧
      (([7, 8] : List Nat).take 2 ++ ([10, 20, 30] : List Nat).drop 2).length =
        ([10, 20, 30] : List Nat).length) ∧
    (([10, 20, 30] : List Nat).length < 2 ∨ ([7, 8] : List Nat).length < 2 →
      copy_slice_memory [10, 20, 30] [7, 8] 2 = none)) :=
  copy_slice_memory_spec [10, 20, 30] [7, 8] 2

/-- C3 counterexample: `byte_eq` on equal inputs returns `1`, not the
all-ones mask byte `0xFF` the claim states. -/
theorem byte_eq_not_all_ones : byte_eq 0 0 = 1 ∧ byte_eq 0 0 ≠ 255 := by
  decide

/-- C3 (amended): for 8-bit inputs, `byte_eq` returns the single-bit mask
`1` when the inputs are equal and `0` otherwise (a value collapsible to a
boolean), not a full-width `0xFF`/`0x00` mask. -/
theorem byte_eq_bit0_mask (x y : Nat) (hx : x < 256) (hy : y < 256) :
    byte_eq x y = if x = y then 1 else 0 :=
  byte_eq_if x y hx hy

/-- Witness for C3 (amended): `byte_eq 3 5` evaluated through the theorem. -/
theorem byte_eq_bit0_mask_witness :
    byte_eq 3 5 = if (3 : Nat) = 5 then 1 else 0 :=
  byte_eq_bit0_mask 3 5 (by decide) (by decide)

/-- C10: for 8-bit inputs, `byte_eq x y` is `1` exactly when `x = y`, `0`
exactly when `x ≠ y`, and never any other value. -/
theorem byte_eq_zero_one (x y : Nat) (hx : x < 256) (hy : y < 256) :
    (byte_eq x y = 1 ↔ x = y) ∧ (byte_eq x y = 0 ↔ x ≠ y) ∧
    (byte_eq x y = 0 ∨ byte_eq x y = 1) := by
  have h := byte_eq_if x y hx hy
  by_cases hxy : x = y
  · rw [h, if_pos hxy]
    simp [hxy]
  · rw [h, if_neg hxy]
    simp [hxy]

/-- Witness for C10: the characterization evaluated at `x = 65`, `y = 66`. -/
theorem byte_eq_zero_one_witness :
    ((byte_eq 65 66 = 1 ↔ (65 : Nat) = 66) ∧ (byte_eq 65 66 = 0 ↔ (65 : Nat) ≠ 66) ∧
    (byte_eq 65 66 = 0 ∨ byte_eq 65 66 = 1)) :=
  byte_eq_zero_one 65 66 (by decide) (by decide)

/-- C1: for buffers over any element type serialized to `sz` bytes each
(all byte values being 8-bit), `bytes_eq` returns `true` exactly when the
lengths are equal and every corresponding element pair is bit-identical
(has the same byte representation); in particular unequal lengths give
`false`. -/
theorem bytes_eq_spec {α : Type} (sz : Nat) (r : α → List Nat) (x y : List α)
    (hr : ∀ a, (r a).length = sz) (hb : ∀ a, ∀ b ∈ r a, b < 256) :
    (bytes_eq sz r x y = true ↔ (x.length = y.length ∧ x.map r = y.map r)) ∧
    (x.length ≠ y.length → bytes_eq sz r x y = false) := by
  by_cases hxy : x.length = y.length
  · refine ⟨?_, fun h => absurd hxy h⟩
    have hpx : ((x.map r).flatten).length = x.length * sz :=
      flatten_length_uniform sz r x hr
    have hpy : ((y.map r).flatten).length = x.length * sz := by
      rw [flatten_length_uniform sz r y hr, hxy]
    rw [bytes_eq, if_neg (by simpa using hxy), bytesEqLoop_eq]
    have hd : (((List.range (x.length * sz)).map
        (fun i => ((x.map r).flatten).getD i 0 ^^^ ((y.map r).flatten).getD i 0)).foldl
          (fun d b => d ||| b) 0) < 256 := by
      have h256 : (256 : Nat) = 2 ^ 8 := by norm_num
      have h8 := foldl_or_lt ((List.range (x.length * sz)).map
        (fun i => ((x.map r).flatten).getD i 0 ^^^ ((y.map r).flatten).getD i 0)) 8 0
        (by norm_num)
        (by
          intro b hbm
          rw [List.mem_map] at hbm
          obtain ⟨i, _, rfl⟩ := hbm
          have hgx := flatten_getD_lt r x hb i
          have hgy := flatten_getD_lt r y hb i
          rw [h256] at hgx hgy
          exact Nat.xor_lt_two_pow hgx hgy)
      rw [← h256] at h8
      exact h8
    rw [beq_iff_eq, byte_eq_if _ 0 hd (by norm_num)]
    constructor
    · intro h1
      refine ⟨hxy, ?_⟩
      have hd0 : (((List.range (x.length * sz)).map
          (fun i => ((x.map r).flatten).getD i 0 ^^^ ((y.map r).flatten).getD i 0)).foldl
            (fun d b => d ||| b) 0) = 0 := by
        by_contra hne
        rw [if_neg hne] at h1
        exact absurd h1 (by norm_num)
      rw [foldl_or_eq_zero] at hd0
      have hpt : ∀ i < x.length * sz,
          ((x.map r).flatten).getD i 0 = ((y.map r).flatten).getD i 0 := by
        intro i hi
        have hx0 := hd0.2 _ (List.mem_map_of_mem
          (fun i => ((x.map r).flatten).getD i 0 ^^^ ((y.map r).flatten).getD i 0)
          (List.mem_range.mpr hi))
        exact Nat.xor_eq_zero.mp hx0
      have hflat : (x.map r).flatten = (y.map r).flatten := by
        apply List.ext_getElem (by rw [hpx, hpy])
        intro i hi1 hi2
        have h1 := hpt i (by omega)
        rwa [List.getD_eq_getElem _ _ hi1, List.getD_eq_getElem _ _ hi2] at h1
      exact flatten_inj_uniform sz (x.map r) (y.map r)
        (by intro l hl; rw [List.mem_map] at hl; obtain ⟨a, _, rfl⟩ := hl; exact hr a)
        (by intro l hl; rw [List.mem_map] at hl; obtain ⟨a, _, rfl⟩ := hl; exact hr a)
        (by simp [hxy]) hflat
    · rintro ⟨-, hmap⟩
      have hflat : (x.map r).flatten = (y.map r).flatten := by rw [hmap]
      have hd0 : (((List.range (x.length * sz)).map
          (fun i => ((x.map r).flatten).getD i 0 ^^^ ((y.map r).flatten).getD i 0)).foldl
            (fun d b => d ||| b) 0) = 0 := by
        rw [foldl_or_eq_zero]
        refine ⟨rfl, ?_⟩
        intro b hbm
        rw [List.mem_map] at hbm
        obtain ⟨i, _, rfl⟩ := hbm
        rw [hflat, Nat.xor_self]
      rw [hd0, if_pos rfl]
  · refine ⟨?_, fun _ => by simp [bytes_eq, hxy]⟩
    rw [bytes_eq, if_pos (by simpa using hxy)]
    constructor
    · intro h; simp at h
    · rintro ⟨h1, -⟩; exact absurd h1 hxy

/-- Witness for C1: `bytes_eq` on concrete one-byte-element buffers. -/
theorem bytes_eq_spec_witness :
    ((bytes_eq 1 (fun a : Fin 256 => [a.val]) [5, 7] [5, 9] = true ↔
      (([5, 7] : List (Fin 256)).length = ([5, 9] : List (Fin 256)).length ∧
       ([5, 7] : List (Fin 256)).map (fun a : Fin 256 => [a.val]) =
         ([5, 9] : List (Fin 256)).map (fun a : Fin 256 => [a.val]))) ∧
    (([5, 7] : List (Fin 256)).length ≠ ([5, 9] : List (Fin 256)).length →
      bytes_eq 1 (fun a : Fin 256 => [a.val]) [5, 7] [5, 9] = false)) :=
  bytes_eq_spec 1 (fun a : Fin 256 => [a.val]) [5, 7] [5, 9]
    (fun _ => rfl)
    (by
      intro a b hbm
      rw [List.mem_singleton] at hbm
      rw [hbm]
      exact a.isLt)

/-- C2: for equal-length buffers the `bytes_eq` loop reads every byte
offset `0, 1, …, size-1` in order, unconditionally — the access sequence is
exactly `List.range (x.length * sz)`, so it (and hence the number of
iterations) depends only on the total byte length, never on the buffer
contents or on where a difference occurs. -/
theorem bytesEqAccesses_spec {α : Type} (sz : Nat) (r : α → List Nat) (x y : List α)
    (h : x.length = y.length) :
    bytesEqAccesses sz r x y = List.range (x.length * sz) ∧
    (∀ x2 y2 : List α, x2.length = x.length → y2.length = y.length →
      bytesEqAccesses sz r x2 y2 = bytesEqAccesses sz r x y) := by
  have hmain : ∀ (u v : List α), u.length = v.length →
      bytesEqAccesses sz r u v = List.range (u.length * sz) := by
    intro u v huv
    rw [bytesEqAccesses, if_neg (by simpa using huv), bytesEqLoop_eq]
  refine ⟨hmain x y h, ?_⟩
  intro x2 y2 h2 h3
  rw [hmain x y h, hmain x2 y2 (by omega), h2]

/-- Witness for C2: the access sequence of two differing concrete buffers. -/
theorem bytesEqAccesses_spec_witness :
    (bytesEqAccesses 1 (fun a : Fin 256 => [a.val]) [1, 2, 3] [9, 2, 3] =
      List.range (([1, 2, 3] : List (Fin 256)).length * 1) ∧
    (∀ x2 y2 : List (Fin 256),
      x2.length = ([1, 2, 3] : List (Fin 256)).length →
      y2.length = ([9, 2, 3] : List (Fin 256)).length →
      bytesEqAccesses 1 (fun a : Fin 256 => [a.val]) x2 y2 =
        bytesEqAccesses 1 (fun a : Fin 256 => [a.val]) [1, 2, 3] [9, 2, 3])) :=
  bytesEqAccesses_spec 1 (fun a : Fin 256 => [a.val]) [1, 2, 3] [9, 2, 3] rfl

/-- C4: on equal-length `Int` buffers, `bytes_cswap` with condition 0
leaves both buffers unchanged, with condition 1 exchanges their contents
exactly, and applying it twice with condition 1 restores the originals. -/
theorem bytes_cswap_spec (x y : List Int) (h : x.length = y.length) :
    bytes_cswap 0 x y = some (x, y) ∧ bytes_cswap 1 x y = some (y, x) ∧
    (bytes_cswap 1 x y).bind (fun p => bytes_cswap 1 p.1 p.2) = some (x, y) := by
  refine ⟨bytes_cswap_zero x y h, bytes_cswap_one x y h, ?_⟩
  rw [bytes_cswap_one x y h, Option.some_bind]
  exact bytes_cswap_one y x h.symm

/-- Witness for C4: conditional swap of two concrete two-element buffers. -/
theorem bytes_cswap_spec_witness :
    (bytes_cswap 0 [2, -3] [5, 7] = some ([2, -3], [5, 7]) ∧
    bytes_cswap 1 [2, -3] [5, 7] = some ([5, 7], [2, -3]) ∧
    (bytes_cswap 1 [2, -3] [5, 7]).bind (fun p => bytes_cswap 1 p.1 p.2) =
      some ([2, -3], [5, 7])) :=
  bytes_cswap_spec [2, -3] [5, 7] rfl

/-- C5: decoding (into a zero-initialized destination) the buffer produced
by little-endian encoding a 32-bit word yields the word again, and
symmetrically for 64-bit words. -/
theorem encode_decode_roundtrip (w32 w64 : Nat) (b32 b64 : List Nat)
    (h32 : w32 < 2 ^ 32) (h64 : w64 < 2 ^ 64)
    (hb32 : 4 ≤ b32.length) (hb64 : 8 ≤ b64.length) :
    (u32to8_le b32 w32).bind (u8to32_le 0) = some w32 ∧
    (u64to8_le b64 w64).bind (u8to64_le 0) = some w64 :=
  ⟨enc_dec32 w32 b32 h32 hb32, enc_dec64 w64 b64 h64 hb64⟩

/-- Witness for C5: the round trip on the words `0x12345678` and
`0x0123456789abcdef`. -/
theorem encode_decode_roundtrip_witness :
    ((u32to8_le (List.replicate 4 0) 305419896).bind (u8to32_le 0) = some 305419896 ∧
    (u64to8_le (List.replicate 8 0) 81985529216486895).bind (u8to64_le 0) =
      some 81985529216486895) :=
  encode_decode_roundtrip 305419896 81985529216486895 (List.replicate 4 0)
    (List.replicate 8 0) (by norm_num) (by norm_num) (by simp) (by simp)

/-- C9: each length precondition is checked and its violation aborts
(`none`): the 32-bit codec aborts exactly when the buffer is shorter than 4
bytes, the 64-bit codec exactly when shorter than 8 bytes, and
`bytes_cswap` exactly when the two buffer lengths differ; equivalently,
under the stated preconditions the abort branch is unreachable and the
operation proceeds. -/
theorem length_guards :
    ∀ (val : Nat) (buf : List Nat) (w : Nat) (cond : Int) (x y : List Int),
      (u8to32_le val buf = none ↔ buf.length < 4) ∧
      (u32to8_le buf w = none ↔ buf.length < 4) ∧
      (u8to64_le val buf = none ↔ buf.length < 8) ∧
      (u64to8_le buf w = none ↔ buf.length < 8) ∧
      (bytes_cswap cond x y = none ↔ x.length ≠ y.length) := by
  intro val buf w cond x y
  refine ⟨?_, ?_, ?_, ?_, ?_⟩
  · by_cases h : 4 ≤ buf.length <;> simp [u8to32_le, h] <;> omega
  · by_cases h : 4 ≤ buf.length <;> simp [u32to8_le, h] <;> omega
  · by_cases h : 8 ≤ buf.length <;> simp [u8to64_le, h] <;> omega
  · by_cases h : 8 ≤ buf.length <;> simp [u64to8_le, h] <;> omega
  · by_cases h : x.length = y.length <;> simp [bytes_cswap, h]

/-- Witness for C9: the guard characterizations at concrete arguments. -/
theorem length_guards_witness :
    ((u8to32_le 0 [1, 2, 3] = none ↔ ([1, 2, 3] : List Nat).length < 4) ∧
    (u32to8_le [1, 2, 3] 9 = none ↔ ([1, 2, 3] : List Nat).length < 4) ∧
    (u8to64_le 0 [1, 2, 3] = none ↔ ([1, 2, 3] : List Nat).length < 8) ∧
    (u64to8_le [1, 2, 3] 9 = none ↔ ([1, 2, 3] : List Nat).length < 8) ∧
    (bytes_cswap 1 [4] [5, 6] = none ↔ ([4] : List Int).length ≠ ([5, 6] : List Int).length)) :=
  length_guards 0 [1, 2, 3] 9 1 [4] [5, 6]

end Utils
